import Mathlib

/-!
Verification of the `bun-plugin-unocss` HTML transform (src/index.ts).

JavaScript strings are modelled as `List Char`.  The plugin's only original
logic is: a file filter (`/\.html$/`), configuration resolution in `setup`,
and the `onLoad` callback, which calls the external generator and performs
`html.replace('</head>', `<style>${css}</style>\n</head>`)`, returning
`{ contents, loader: 'html' }`.  `String.prototype.replace` with a string
pattern replaces only the first occurrence and interprets `$`-escape
sequences in the replacement string (ECMA-262 GetSubstitution); both are
modelled faithfully below.
-/

namespace BunPluginUnocss

/-- `hasPre p l` is true when list `l` begins with the block `p`
(as in JavaScript `l.startsWith(p)`); the building block of substring search. -/
def hasPre : List Char → List Char → Bool
  | [], _ => true
  | _ :: _, [] => false
  | a :: p, b :: l => a == b && hasPre p l

/-- Index of the first occurrence of `pat` in `l`, as in JavaScript
`l.indexOf(pat)` (`none` models the `-1` result). -/
def firstIndexOf (l pat : List Char) : Option Nat :=
  if hasPre pat l then some 0
  else
    match l with
    | [] => none
    | _ :: t => (firstIndexOf t pat).map (· + 1)

/-- Number of positions of `l` at which `pat` occurs. -/
def countOccs (pat : List Char) : List Char → Nat
  | [] => if hasPre pat [] then 1 else 0
  | c :: t => (if hasPre pat (c :: t) then 1 else 0) + countOccs pat t

/-- The dollar character that starts a replacement escape in JavaScript. -/
def dollar : Char := '$'

/-- The ampersand: in `$&` it denotes the matched substring. -/
def amp : Char := '&'

/-- The backquote character (code 96): in a dollar escape it denotes the
portion of the string preceding the match. -/
def backq : Char := Char.ofNat 96

/-- The single-quote character (code 39): in a dollar escape it denotes the
portion of the string following the match. -/
def singq : Char := Char.ofNat 39

/-- ECMA-262 GetSubstitution for a string (non-regexp) pattern: the
replacement text with the dollar escapes expanded.  `m` is the matched
substring, `b` the part of the subject before the match, `a` the part after
it.  With a string pattern there are no capture groups, so `$n` and
`$<name>` pass through literally; a lone trailing `$` is literal. -/
def getSubstitution (m b a : List Char) : List Char → List Char
  | [] => []
  | [c] => [c]
  | c :: d :: rest =>
    if c = dollar then
      if d = dollar then dollar :: getSubstitution m b a rest
      else if d = amp then m ++ getSubstitution m b a rest
      else if d = backq then b ++ getSubstitution m b a rest
      else if d = singq then a ++ getSubstitution m b a rest
      else c :: d :: getSubstitution m b a rest
    else c :: getSubstitution m b a (d :: rest)

/-- JavaScript `l.replace(pat, rep)` with string arguments: if `pat` occurs,
the first occurrence is replaced by `rep` with its dollar escapes expanded;
otherwise the string is returned unchanged. -/
def jsReplace (l pat rep : List Char) : List Char :=
  match firstIndexOf l pat with
  | none => l
  | some i =>
    l.take i ++ getSubstitution pat (l.take i) (l.drop (i + pat.length)) rep
      ++ l.drop (i + pat.length)

/-- The literal `"</head>"` searched for by the transform. -/
def headClose : List Char := ['<', '/', 'h', 'e', 'a', 'd', '>']

/-- The literal `"<style>"`. -/
def styleOpen : List Char := ['<', 's', 't', 'y', 'l', 'e', '>']

/-- The literal `"</style>"`. -/
def styleClose : List Char := ['<', '/', 's', 't', 'y', 'l', 'e', '>']

/-- The style block the spec describes as inserted before the closing head
tag: `"<style>" ++ css ++ "</style>" ++ "\n"`. -/
def styleIns (css : List Char) : List Char :=
  styleOpen ++ css ++ styleClose ++ ['\n']

/-- The literal replacement string built by the source
(template `<style>${css}</style>\n</head>`). -/
def styleTemplate (css : List Char) : List Char :=
  styleIns css ++ headClose

/-- The transformed file contents (src/index.ts line 25):
`html.replace('</head>', `<style>${css}</style>\n</head>`)`. -/
def transformHtml (css html : List Char) : List Char :=
  jsReplace html headClose (styleTemplate css)

/-- The object returned by the `onLoad` callback (src/index.ts lines 27-30). -/
structure LoadResult where
  contents : List Char
  loader : String
deriving DecidableEq

/-- The successful result of the `onLoad` callback for file text `html`
when the generator produced `css`. -/
def onLoadResult (css html : List Char) : LoadResult :=
  { contents := transformHtml css html, loader := "html" }

/-- The `onLoad` callback (src/index.ts lines 22-31) with the awaited
external call `generator.generate` abstracted as a fallible function:
a rejection short-circuits the callback, a fulfilled value is spliced
into the HTML. -/
def onLoadHook {Err : Type} (generate : List Char → Except Err (List Char))
    (html : List Char) : Except Err LoadResult :=
  match generate html with
  | Except.error e => Except.error e
  | Except.ok css => Except.ok (onLoadResult css html)

/-- Configuration resolution in `setup` (src/index.ts lines 10-20):
`userConfig` is the optional caller-supplied configuration,
`loadConfigResult` the outcome of the awaited external `loadConfig()` call,
consulted only in the else branch; the result is the value handed to
`createGenerator`. -/
def resolveConfig {Config Err : Type} (userConfig : Option Config)
    (loadConfigResult : Except Err Config) : Except Err Config :=
  match userConfig with
  | some c => Except.ok c
  | none =>
    match loadConfigResult with
    | Except.ok config => Except.ok config
    | Except.error e => Except.error e

/-- The literal `".html"` of the filter regex. -/
def dotHtml : List Char := ['.', 'h', 't', 'm', 'l']

/-- Model of the `onLoad` filter regex `/\.html$/` (src/index.ts line 22):
an unanchored search that tries every start position and succeeds when the
literal `".html"` matches there with the end anchor, i.e. when the rest of
the path is exactly `".html"`. -/
def regexHtmlSearch (s : List Char) : Bool :=
  s == dotHtml ||
    match s with
    | [] => false
    | _ :: t => regexHtmlSearch t

/-! ### Basic facts about `hasPre` -/

theorem hasPre_iff (p l : List Char) : hasPre p l = true ↔ ∃ t, p ++ t = l := by
  induction p generalizing l with
  | nil => simp [hasPre]
  | cons a p ih =>
    cases l with
    | nil => simp [hasPre]
    | cons b l =>
      simp only [hasPre, Bool.and_eq_true, beq_iff_eq, ih]
      constructor
      · rintro ⟨rfl, t, rfl⟩
        exact ⟨t, rfl⟩
      · rintro ⟨t, ht⟩
        cases ht
        exact ⟨rfl, t, rfl⟩

theorem hasPre_refl (p : List Char) : hasPre p p = true :=
  (hasPre_iff p p).2 ⟨[], List.append_nil p⟩

theorem hasPre_append_right (p l b : List Char) (h : hasPre p l = true) :
    hasPre p (l ++ b) = true := by
  obtain ⟨t, rfl⟩ := (hasPre_iff p l).1 h
  exact (hasPre_iff _ _).2 ⟨t ++ b, by simp⟩

theorem hasPre_length_le (p l : List Char) (h : hasPre p l = true) :
    p.length ≤ l.length := by
  obtain ⟨t, rfl⟩ := (hasPre_iff p l).1 h
  simp

theorem hasPre_nil_iff (p : List Char) : hasPre p [] = true ↔ p = [] := by
  cases p <;> simp [hasPre]

theorem hasPre_eq_of_length (x p : List Char) (h : hasPre x p = true)
    (hl : p.length ≤ x.length) : x = p := by
  obtain ⟨t, rfl⟩ := (hasPre_iff x p).1 h
  have : t = [] := by
    cases t with
    | nil => rfl
    | cons c u =>
      exfalso
      simp only [List.length_append, List.length_cons] at hl
      omega
  simp [this]

theorem hasPre_cons_ex (c : Char) (p l : List Char)
    (h : hasPre (c :: p) l = true) : ∃ t, l = c :: t := by
  obtain ⟨t, rfl⟩ := (hasPre_iff _ l).1 h
  exact ⟨p ++ t, rfl⟩

theorem hasPre_trans (p x y : List Char) (h1 : hasPre p x = true)
    (h2 : hasPre x y = true) : hasPre p y = true := by
  obtain ⟨t, rfl⟩ := (hasPre_iff p x).1 h1
  obtain ⟨u, rfl⟩ := (hasPre_iff _ y).1 h2
  exact (hasPre_iff _ _).2 ⟨t ++ u, by simp⟩

theorem hasPre_append_cancel (x r b : List Char)
    (h : hasPre (x ++ r) (x ++ b) = true) : hasPre r b = true := by
  induction x with
  | nil => exact h
  | cons c x ih =>
    simp only [List.cons_append, hasPre, Bool.and_eq_true, beq_iff_eq] at h
    exact ih h.2

theorem hasPre_block (x p : List Char) (h : hasPre x p = true) :
    x ++ p.drop x.length = p := by
  obtain ⟨t, rfl⟩ := (hasPre_iff x p).1 h
  simp

theorem hasPre_append_cases (p x b : List Char)
    (h : hasPre p (x ++ b) = true) : hasPre p x = true ∨ hasPre x p = true := by
  induction x generalizing p with
  | nil => exact Or.inr (by simp [hasPre])
  | cons c x ih =>
    cases p with
    | nil => exact Or.inl (by simp [hasPre])
    | cons d p =>
      simp only [List.cons_append, hasPre, Bool.and_eq_true, beq_iff_eq] at h
      obtain ⟨rfl, h2⟩ := h
      rcases ih p h2 with h3 | h3
      · exact Or.inl (by simp [hasPre, h3])
      · exact Or.inr (by simp [hasPre, h3])

theorem straddle_cases (pat x b : List Char) (h : hasPre pat (x ++ b) = true) :
    hasPre pat x = true ∨
      (x.length < pat.length ∧ hasPre x pat = true ∧
        hasPre (pat.drop x.length) b = true) := by
  rcases hasPre_append_cases pat x b h with h1 | h1
  · exact Or.inl h1
  · by_cases hl : pat.length ≤ x.length
    · have : x = pat := hasPre_eq_of_length x pat h1 hl
      subst this
      exact Or.inl (hasPre_refl x)
    · refine Or.inr ⟨by omega, h1, ?_⟩
      have hb := hasPre_block x pat h1
      have h2 : hasPre (x ++ pat.drop x.length) (x ++ b) = true := by
        rw [hb]; exact h
      exact hasPre_append_cancel _ _ _ h2

theorem bhead_kill (pat x b : List Char) (c : Char) (hx : x ≠ [])
    (hxl : x.length < pat.length)
    (h3 : hasPre (pat.drop x.length) b = true)
    (hb : b.head? = some c) (hc : c ∉ pat.drop 1) : False := by
  have hxlen : 1 ≤ x.length := by
    cases x with
    | nil => exact absurd rfl hx
    | cons _ _ => simp
  have hlen : 0 < (pat.drop x.length).length := by
    simp only [List.length_drop]
    omega
  obtain ⟨e, r, her⟩ : ∃ e r, pat.drop x.length = e :: r := by
    cases hd : pat.drop x.length with
    | nil => rw [hd] at hlen; simp at hlen
    | cons e r => exact ⟨e, r, rfl⟩
  rw [her] at h3
  obtain ⟨t, rfl⟩ := hasPre_cons_ex e r b h3
  simp only [List.head?_cons, Option.some.injEq] at hb
  apply hc
  have hmem : e ∈ pat.drop x.length := by rw [her]; exact List.mem_cons_self _ _
  have : pat.drop x.length = (pat.drop 1).drop (x.length - 1) := by
    rw [List.drop_drop]
    congr 1
    omega
  rw [this] at hmem
  exact hb ▸ List.drop_subset _ _ hmem

/-! ### Facts about `countOccs` and `firstIndexOf` -/

theorem drop_ne_nil_of_lt (a : List Char) (k : Nat) (hk : k < a.length) :
    a.drop k ≠ [] := by
  intro hnil
  have := congrArg List.length hnil
  simp only [List.length_drop, List.length_nil] at this
  omega

theorem drop_append_le (a b : List Char) (j : Nat) (hj : j ≤ a.length) :
    (a ++ b).drop j = a.drop j ++ b := by
  induction a generalizing j with
  | nil =>
    simp only [List.length_nil, Nat.le_zero] at hj
    subst hj
    simp
  | cons c t ih =>
    cases j with
    | zero => simp
    | succ j =>
      simp only [List.length_cons, Nat.succ_le_succ_iff] at hj
      simpa using ih j hj

theorem countOccs_nil_eq (pat : List Char) (hp : pat ≠ []) :
    countOccs pat [] = 0 := by
  have : hasPre pat [] = false := by
    cases h : hasPre pat []
    · rfl
    · exact absurd ((hasPre_nil_iff pat).1 h) hp
  simp [countOccs, this]

theorem countOccs_zero_iff (pat l : List Char) (hp : pat ≠ []) :
    countOccs pat l = 0 ↔ ∀ j, hasPre pat (l.drop j) = false := by
  induction l with
  | nil =>
    simp only [countOccs_nil_eq pat hp, List.drop_nil, true_iff]
    intro j
    cases h : hasPre pat []
    · rfl
    · exact absurd ((hasPre_nil_iff pat).1 h) hp
  | cons c t ih =>
    simp only [countOccs]
    constructor
    · intro h j
      have h1 : hasPre pat (c :: t) = false := by
        cases hh : hasPre pat (c :: t)
        · rfl
        · rw [hh] at h; simp at h
      have h2 : countOccs pat t = 0 := by
        cases hh : hasPre pat (c :: t) <;> rw [hh] at h <;> omega
      cases j with
      | zero => simpa using h1
      | succ j => exact (ih.1 h2) j
    · intro h
      have h1 : hasPre pat (c :: t) = false := by simpa using h 0
      have h2 : countOccs pat t = 0 := ih.2 fun j => by simpa using h (j + 1)
      simp [h1, h2]

theorem countOccs_pos_of_drop (pat a : List Char) (k : Nat) (hp : pat ≠ [])
    (h : hasPre pat (a.drop k) = true) : 0 < countOccs pat a := by
  rcases Nat.eq_zero_or_pos (countOccs pat a) with h0 | h0
  · have := ((countOccs_zero_iff pat a hp).1 h0) k
    rw [h] at this
    simp at this
  · exact h0

theorem countOccs_append_split (pat a b : List Char) (hp : pat ≠ [])
    (H : ∀ k, k < a.length → hasPre pat (a.drop k ++ b) = true →
      hasPre pat (a.drop k) = true) :
    countOccs pat (a ++ b) = countOccs pat a + countOccs pat b := by
  induction a with
  | nil => simp [countOccs_nil_eq pat hp]
  | cons c t ih =>
    have hcond : hasPre pat ((c :: t) ++ b) = hasPre pat (c :: t) := by
      cases h0 : hasPre pat (c :: t)
      · cases h1 : hasPre pat ((c :: t) ++ b)
        · rfl
        · have h2 := H 0 (by simp) (by simpa using h1)
          simp only [List.drop_zero] at h2
          rw [h2] at h0
          simp at h0
      · exact hasPre_append_right pat (c :: t) b h0
    have ih2 : countOccs pat (t ++ b) = countOccs pat t + countOccs pat b := by
      apply ih
      intro k hk hh
      have := H (k + 1) (by simp only [List.length_cons]; omega)
        (by simpa using hh)
      simpa using this
    have key : (c :: t) ++ b = c :: (t ++ b) := rfl
    rw [key, countOccs, countOccs, ← key, hcond, ih2]
    exact (Nat.add_assoc _ _ _).symm

theorem split_of_bhead (pat a b : List Char) (c : Char) (hp : pat ≠ [])
    (hb : b.head? = some c) (hc : c ∉ pat.drop 1) :
    countOccs pat (a ++ b) = countOccs pat a + countOccs pat b := by
  apply countOccs_append_split pat a b hp
  intro k hk h
  rcases straddle_cases pat (a.drop k) b h with h1 | ⟨hl, _, h3⟩
  · exact h1
  · exact absurd (bhead_kill pat (a.drop k) b c
      (drop_ne_nil_of_lt a k hk) hl h3 hb hc) not_false

theorem split_of_asuffix (pat a b : List Char) (hp : pat ≠ [])
    (ha : ∀ k, k < a.length → (a.drop k).length < pat.length →
      hasPre (a.drop k) pat = false) :
    countOccs pat (a ++ b) = countOccs pat a + countOccs pat b := by
  apply countOccs_append_split pat a b hp
  intro k hk h
  rcases straddle_cases pat (a.drop k) b h with h1 | ⟨hl, h2, _⟩
  · exact h1
  · rw [ha k hk hl] at h2
    exact absurd h2 (by simp)

theorem firstIndexOf_spec (l pat : List Char) (i : Nat)
    (h : firstIndexOf l pat = some i) :
    hasPre pat (l.drop i) = true ∧ ∀ j, j < i → hasPre pat (l.drop j) = false := by
  induction l generalizing i with
  | nil =>
    rw [firstIndexOf] at h
    by_cases h0 : hasPre pat [] = true
    · rw [if_pos h0] at h
      cases h
      exact ⟨h0, fun j hj => absurd hj (Nat.not_lt_zero j)⟩
    · rw [if_neg h0] at h
      cases h
  | cons c t ih =>
    rw [firstIndexOf] at h
    by_cases h0 : hasPre pat (c :: t) = true
    · rw [if_pos h0] at h
      cases h
      exact ⟨h0, fun j hj => absurd hj (Nat.not_lt_zero j)⟩
    · rw [if_neg h0] at h
      simp only [Option.map_eq_some'] at h
      obtain ⟨i', hi', rfl⟩ := h
      obtain ⟨hmain, hmin⟩ := ih i' hi'
      refine ⟨by simpa using hmain, ?_⟩
      intro j hj
      cases j with
      | zero =>
        simp only [List.drop_zero]
        cases hh : hasPre pat (c :: t)
        · rfl
        · exact absurd hh h0
      | succ j =>
        exact hmin j (by omega)

theorem firstIndexOf_none_of (l pat : List Char)
    (h : ∀ j, hasPre pat (l.drop j) = false) : firstIndexOf l pat = none := by
  induction l with
  | nil =>
    rw [firstIndexOf]
    rw [if_neg]
    intro hh
    have := h 0
    rw [List.drop_zero] at this
    rw [this] at hh
    exact Bool.false_ne_true hh
  | cons c t ih =>
    rw [firstIndexOf]
    rw [if_neg, ih fun j => by simpa using h (j + 1)]
    · rfl
    · intro hh
      have := h 0
      rw [List.drop_zero] at this
      rw [this] at hh
      exact Bool.false_ne_true hh

theorem firstIndexOf_some_lt (l pat : List Char) (i : Nat) (hp : pat ≠ [])
    (h : firstIndexOf l pat = some i) : i < l.length := by
  have hmain := (firstIndexOf_spec l pat i h).1
  have hle := hasPre_length_le pat (l.drop i) hmain
  have hplen : 0 < pat.length := by
    cases pat with
    | nil => exact absurd rfl hp
    | cons _ _ => simp
  simp only [List.length_drop] at hle
  omega

theorem firstIndexOf_append_shift (pat a b : List Char)
    (h : ∀ k, k < a.length → hasPre pat (a.drop k ++ b) = false) :
    firstIndexOf (a ++ b) pat = (firstIndexOf b pat).map (· + a.length) := by
  induction a with
  | nil =>
    simp only [List.nil_append, List.length_nil]
    cases firstIndexOf b pat <;> simp
  | cons c t ih =>
    have h0 : hasPre pat (c :: (t ++ b)) = false := by
      have := h 0 (by simp only [List.length_cons]; omega)
      simpa using this
    have ih2 : firstIndexOf (t ++ b) pat =
        (firstIndexOf b pat).map (· + t.length) := by
      apply ih
      intro k hk
      have := h (k + 1) (by simp only [List.length_cons]; omega)
      simpa using this
    have key : (c :: t) ++ b = c :: (t ++ b) := rfl
    rw [key, firstIndexOf, if_neg (by simp [h0]), ih2]
    cases firstIndexOf b pat with
    | none => rfl
    | some j =>
      simp only [Option.map_some', Option.map_map, Function.comp,
        Option.some.injEq, List.length_cons]
      omega

/-! ### Facts about `getSubstitution` and the shape of the transform -/

theorem listLenRec (P : List Char → Prop)
    (step : ∀ l, (∀ l2 : List Char, l2.length < l.length → P l2) → P l) :
    ∀ l, P l := by
  have H : ∀ n (l : List Char), l.length ≤ n → P l := by
    intro n
    induction n with
    | zero =>
      intro l hl
      apply step
      intro l2 h2
      omega
    | succ n ih =>
      intro l hl
      apply step
      intro l2 h2
      exact ih l2 (by omega)
  exact fun l => H l.length l (Nat.le_refl _)

theorem getSubstitution_id (m b a : List Char) :
    ∀ rep : List Char, dollar ∉ rep → getSubstitution m b a rep = rep := by
  apply listLenRec (fun rep => dollar ∉ rep → getSubstitution m b a rep = rep)
  intro l ih h
  cases l with
  | nil => rfl
  | cons c l2 =>
    cases l2 with
    | nil => rfl
    | cons d rest =>
      have hc : ¬ c = dollar := by
        intro e
        apply h
        rw [e]
        exact List.mem_cons_self _ _
      have hd2 : dollar ∉ d :: rest := by
        intro hm
        exact h (List.mem_cons_of_mem c hm)
      rw [getSubstitution, if_neg hc, ih (d :: rest) (by simp) hd2]

theorem getSubstitution_append_tail (m b a ys : List Char)
    (hys : dollar ∉ ys)
    (hh : ∀ c, ys.head? = some c → c ≠ amp ∧ c ≠ backq ∧ c ≠ singq) :
    ∀ xs, ∃ zs, getSubstitution m b a (xs ++ ys) = zs ++ ys := by
  apply listLenRec (fun xs => ∃ zs, getSubstitution m b a (xs ++ ys) = zs ++ ys)
  intro xs ih
  cases xs with
  | nil => exact ⟨[], by simp [getSubstitution_id m b a ys hys]⟩
  | cons c xs2 =>
    cases xs2 with
    | nil =>
      cases hy : ys with
      | nil =>
        refine ⟨[c], ?_⟩
        simp [getSubstitution]
      | cons d ys2 =>
        subst hy
        have hd : ¬ d = dollar := by
          intro e
          apply hys
          rw [e]
          exact List.mem_cons_self _ _
        have hys2 : dollar ∉ ys2 := fun hm => hys (List.mem_cons_of_mem d hm)
        obtain ⟨h1, h2, h3⟩ := hh d rfl
        refine ⟨[c], ?_⟩
        show getSubstitution m b a (c :: d :: ys2) = [c] ++ d :: ys2
        by_cases hc : c = dollar
        · rw [getSubstitution, if_pos hc, if_neg hd, if_neg h1, if_neg h2,
            if_neg h3, getSubstitution_id m b a ys2 hys2]
          rfl
        · rw [getSubstitution, if_neg hc,
            getSubstitution_id m b a (d :: ys2) hys]
          rfl
    | cons d rest =>
      have key : ((c :: d :: rest) ++ ys) = c :: d :: (rest ++ ys) := rfl
      by_cases hc : c = dollar
      · by_cases hdd : d = dollar
        · obtain ⟨zs, hz⟩ := ih rest (by simp only [List.length_cons]; omega)
          refine ⟨dollar :: zs, ?_⟩
          rw [key, getSubstitution, if_pos hc, if_pos hdd, hz]
          rfl
        · by_cases hda : d = amp
          · obtain ⟨zs, hz⟩ := ih rest (by simp only [List.length_cons]; omega)
            refine ⟨m ++ zs, ?_⟩
            rw [key, getSubstitution, if_pos hc, if_neg hdd, if_pos hda, hz]
            simp
          · by_cases hdb : d = backq
            · obtain ⟨zs, hz⟩ := ih rest (by simp only [List.length_cons]; omega)
              refine ⟨b ++ zs, ?_⟩
              rw [key, getSubstitution, if_pos hc, if_neg hdd, if_neg hda,
                if_pos hdb, hz]
              simp
            · by_cases hds : d = singq
              · obtain ⟨zs, hz⟩ :=
                  ih rest (by simp only [List.length_cons]; omega)
                refine ⟨a ++ zs, ?_⟩
                rw [key, getSubstitution, if_pos hc, if_neg hdd, if_neg hda,
                  if_neg hdb, if_pos hds, hz]
                simp
              · obtain ⟨zs, hz⟩ :=
                  ih rest (by simp only [List.length_cons]; omega)
                refine ⟨c :: d :: zs, ?_⟩
                rw [key, getSubstitution, if_pos hc, if_neg hdd, if_neg hda,
                  if_neg hdb, if_neg hds, hz]
                rfl
      · obtain ⟨zs, hz⟩ :=
          ih (d :: rest) (by simp only [List.length_cons]; omega)
        refine ⟨c :: zs, ?_⟩
        rw [key, getSubstitution, if_neg hc]
        rw [show d :: (rest ++ ys) = (d :: rest) ++ ys from rfl, hz]
        rfl

theorem drop_eq_block (l pat : List Char) (i : Nat)
    (h : hasPre pat (l.drop i) = true) :
    pat ++ l.drop (i + pat.length) = l.drop i := by
  have hb := hasPre_block pat (l.drop i) h
  rw [List.drop_drop] at hb
  exact hb

theorem not_dollar_mem_template (css : List Char) (hd : dollar ∉ css) :
    dollar ∉ styleTemplate css := by
  intro hm
  simp only [styleTemplate, styleIns, List.append_assoc, List.mem_append] at hm
  rcases hm with h | h | h | h | h
  · exact absurd h (by decide)
  · exact hd h
  · exact absurd h (by decide)
  · exact absurd h (by decide)
  · exact absurd h (by decide)

theorem transform_structure (html css : List Char) (i : Nat)
    (hi : firstIndexOf html headClose = some i) (hd : dollar ∉ css) :
    transformHtml css html = html.take i ++ styleIns css ++ html.drop i := by
  have hspec := (firstIndexOf_spec html headClose i hi).1
  have hre : transformHtml css html =
      html.take i ++ getSubstitution headClose (html.take i)
        (html.drop (i + headClose.length)) (styleTemplate css)
        ++ html.drop (i + headClose.length) := by
    rw [transformHtml, jsReplace, hi]
  rw [hre, getSubstitution_id _ _ _ _ (not_dollar_mem_template css hd),
    styleTemplate]
  simp only [List.append_assoc]
  rw [drop_eq_block html headClose i hspec]

/-! ### Counting style elements across the transform -/

theorem countOccs_take_zero (html pat : List Char) (i : Nat) (hp : pat ≠ [])
    (hmin : ∀ j, j < i → hasPre pat (html.drop j) = false) (hi : i ≤ html.length) :
    countOccs pat (html.take i) = 0 := by
  rw [countOccs_zero_iff pat _ hp]
  intro j
  by_cases hj : j < i
  · cases hh : hasPre pat ((html.take i).drop j)
    · rfl
    · exfalso
      have hext : hasPre pat ((html.take i).drop j ++ html.drop i) = true :=
        hasPre_append_right _ _ _ hh
      have heq : (html.take i).drop j ++ html.drop i = html.drop j := by
        have h1 : (html.take i ++ html.drop i).drop j =
            (html.take i).drop j ++ html.drop i :=
          drop_append_le _ _ j (by simp only [List.length_take]; omega)
        rw [List.take_append_drop] at h1
        exact h1.symm
      rw [heq, hmin j hj] at hext
      simp at hext
  · have hnil : (html.take i).drop j = [] := by
      apply List.drop_eq_nil_of_le
      simp only [List.length_take]
      omega
    rw [hnil]
    cases hh : hasPre pat []
    · rfl
    · exact absurd ((hasPre_nil_iff pat).1 hh) hp

theorem headq_of_headClose (l : List Char) (h : hasPre headClose l = true) :
    l.head? = some '<' := by
  obtain ⟨t, ht⟩ := hasPre_cons_ex '<' ['/', 'h', 'e', 'a', 'd', '>'] l h
  rw [ht]
  rfl

theorem styleIns_headq (css tail : List Char) :
    (styleIns css ++ tail).head? = some '<' := rfl

theorem countOccs_styleOpen_styleIns (css : List Char)
    (hs : countOccs styleOpen css = 0) :
    countOccs styleOpen (styleIns css) = 1 := by
  have e : styleIns css = styleOpen ++ (css ++ (styleClose ++ ['\n'])) := by
    simp [styleIns, List.append_assoc]
  rw [e]
  rw [split_of_asuffix styleOpen styleOpen _ (by decide) (by decide)]
  rw [split_of_bhead styleOpen css (styleClose ++ ['\n']) '<' (by decide) rfl
    (by decide)]
  rw [hs]
  have c1 : countOccs styleOpen styleOpen = 1 := by decide
  have c2 : countOccs styleOpen (styleClose ++ ['\n']) = 0 := by decide
  omega

theorem countOccs_headClose_styleIns (css : List Char)
    (hch : countOccs headClose css = 0) :
    countOccs headClose (styleIns css) = 0 := by
  have e : styleIns css = styleOpen ++ (css ++ (styleClose ++ ['\n'])) := by
    simp [styleIns, List.append_assoc]
  rw [e]
  rw [split_of_asuffix headClose styleOpen _ (by decide) (by decide)]
  rw [split_of_bhead headClose css (styleClose ++ ['\n']) '<' (by decide) rfl
    (by decide)]
  rw [hch]
  have c1 : countOccs headClose styleOpen = 0 := by decide
  have c2 : countOccs headClose (styleClose ++ ['\n']) = 0 := by decide
  omega

theorem countOccs_transform (html css : List Char) (i : Nat)
    (hi : firstIndexOf html headClose = some i) (hd : dollar ∉ css)
    (hs : countOccs styleOpen css = 0) :
    countOccs styleOpen (transformHtml css html) =
      countOccs styleOpen html + 1 := by
  obtain ⟨hspec, _⟩ := firstIndexOf_spec html headClose i hi
  have hdropq : (html.drop i).head? = some '<' := headq_of_headClose _ hspec
  rw [transform_structure html css i hi hd]
  rw [List.append_assoc]
  rw [split_of_bhead styleOpen (html.take i) (styleIns css ++ html.drop i) '<'
    (by decide) (styleIns_headq css (html.drop i)) (by decide)]
  rw [split_of_bhead styleOpen (styleIns css) (html.drop i) '<' (by decide)
    hdropq (by decide)]
  rw [countOccs_styleOpen_styleIns css hs]
  have hsplit : countOccs styleOpen html =
      countOccs styleOpen (html.take i) + countOccs styleOpen (html.drop i) := by
    conv_lhs => rw [← List.take_append_drop i html]
    exact split_of_bhead styleOpen (html.take i) (html.drop i) '<' (by decide)
      hdropq (by decide)
  rw [hsplit]
  omega

theorem firstIndexOf_transform (html css : List Char) (i : Nat)
    (hi : firstIndexOf html headClose = some i) (hd : dollar ∉ css)
    (hch : countOccs headClose css = 0) :
    firstIndexOf (transformHtml css html) headClose =
      some (i + (styleIns css).length) := by
  obtain ⟨hspec, hmin⟩ := firstIndexOf_spec html headClose i hi
  have hlt : i < html.length :=
    firstIndexOf_some_lt html headClose i (by decide) hi
  have hdropq : (html.drop i).head? = some '<' := headq_of_headClose _ hspec
  have hzero : countOccs headClose (html.take i ++ styleIns css) = 0 := by
    rw [split_of_bhead headClose (html.take i) (styleIns css) '<' (by decide)
      (by rw [show styleIns css = styleIns css ++ [] from by simp]
          exact styleIns_headq css []) (by decide)]
    rw [countOccs_take_zero html headClose i (by decide) hmin (by omega)]
    rw [countOccs_headClose_styleIns css hch]
  have H : ∀ k, k < (html.take i ++ styleIns css).length →
      hasPre headClose ((html.take i ++ styleIns css).drop k ++ html.drop i)
        = false := by
    intro k hk
    cases hh : hasPre headClose
        ((html.take i ++ styleIns css).drop k ++ html.drop i)
    · rfl
    · exfalso
      rcases straddle_cases headClose ((html.take i ++ styleIns css).drop k)
          (html.drop i) hh with h1 | ⟨hl, _, h3⟩
      · have hpos := countOccs_pos_of_drop headClose
          (html.take i ++ styleIns css) k (by decide) h1
        omega
      · exact bhead_kill headClose ((html.take i ++ styleIns css).drop k)
          (html.drop i) '<'
          (drop_ne_nil_of_lt _ k hk) hl h3 hdropq (by decide)
  rw [transform_structure html css i hi hd]
  rw [firstIndexOf_append_shift headClose (html.take i ++ styleIns css)
    (html.drop i) H]
  have h0 : firstIndexOf (html.drop i) headClose = some 0 := by
    rw [firstIndexOf.eq_def, if_pos hspec]
  rw [h0]
  simp only [Option.map_some', Option.some.injEq, List.length_append,
    List.length_take]
  omega

/-! ### Concrete sample inputs used by witnesses and the counterexample -/

/-- The document `"<head></head>"`; its closing head tag starts at index 6. -/
def sampleHtml : List Char :=
  ['<', 'h', 'e', 'a', 'd', '>', '<', '/', 'h', 'e', 'a', 'd', '>']

/-- A harmless generated-CSS sample, `"a:b"`. -/
def sampleCss : List Char := ['a', ':', 'b']

/-- A generated-CSS sample consisting of the JavaScript replacement escape
`"$&"`. -/
def dollarCss : List Char := ['$', '&']

/-- A document whose head tags are upper case, `"<HEAD></HEAD>"`: it contains
no occurrence of the exact lowercase `"</head>"`. -/
def upperHtml : List Char :=
  ['<', 'H', 'E', 'A', 'D', '>', '<', '/', 'H', 'E', 'A', 'D', '>']

/-! ### The claims -/

/-- C1: for every HTML input containing the closing head tag (at first index
`i`), the transform output is the input with the style block spliced in at
`i`, it contains exactly one more `"<style>"` occurrence than the input, and
the splice point is immediately before that closing head tag.  The generated
CSS is abstracted as an arbitrary string that contains no `"<style>"`
occurrence and no dollar character. -/
theorem c1_single_style_element (html css : List Char) (i : Nat)
    (hi : firstIndexOf html headClose = some i)
    (hd : dollar ∉ css) (hs : countOccs styleOpen css = 0) :
    transformHtml css html = html.take i ++ styleIns css ++ html.drop i ∧
    countOccs styleOpen (transformHtml css html) =
      countOccs styleOpen html + 1 ∧
    hasPre headClose (html.drop i) = true :=
  ⟨transform_structure html css i hi hd,
   countOccs_transform html css i hi hd hs,
   (firstIndexOf_spec html headClose i hi).1⟩

theorem c1_single_style_element_witness :
    firstIndexOf sampleHtml headClose = some 6 ∧ dollar ∉ sampleCss ∧
    countOccs styleOpen sampleCss = 0 ∧
    (transformHtml sampleCss sampleHtml =
        sampleHtml.take 6 ++ styleIns sampleCss ++ sampleHtml.drop 6 ∧
      countOccs styleOpen (transformHtml sampleCss sampleHtml) =
        countOccs styleOpen sampleHtml + 1 ∧
      hasPre headClose (sampleHtml.drop 6) = true) :=
  ⟨by decide, by decide, by decide,
   c1_single_style_element sampleHtml sampleCss 6 (by decide) (by decide)
     (by decide)⟩

/-- C2: for every input containing the closing head tag (at first index `i`)
and every generated CSS string, the transform output is the original content
with exactly one substring inserted at `i`: every other character is
preserved unchanged and in order. -/
theorem c2_insertion_preserves_content (html css : List Char) (i : Nat)
    (hi : firstIndexOf html headClose = some i) :
    ∃ ins, transformHtml css html = html.take i ++ ins ++ html.drop i := by
  obtain ⟨hspec, _⟩ := firstIndexOf_spec html headClose i hi
  have hre : transformHtml css html =
      html.take i ++ getSubstitution headClose (html.take i)
        (html.drop (i + headClose.length)) (styleTemplate css)
        ++ html.drop (i + headClose.length) := by
    rw [transformHtml, jsReplace, hi]
  obtain ⟨zs, hz⟩ := getSubstitution_append_tail headClose (html.take i)
    (html.drop (i + headClose.length)) (styleClose ++ (['\n'] ++ headClose))
    (by decide)
    (fun c hc => by
      have h2 : some '<' = some c := hc
      injection h2 with h3
      subst h3
      decide)
    (styleOpen ++ css)
  have e1 : styleTemplate css =
      (styleOpen ++ css) ++ (styleClose ++ (['\n'] ++ headClose)) := by
    simp [styleTemplate, styleIns, List.append_assoc]
  refine ⟨zs ++ (styleClose ++ ['\n']), ?_⟩
  rw [hre, e1, hz, ← drop_eq_block html headClose i hspec]
  simp [List.append_assoc]

theorem c2_insertion_preserves_content_witness :
    firstIndexOf sampleHtml headClose = some 6 ∧
    ∃ ins, transformHtml dollarCss sampleHtml =
      sampleHtml.take 6 ++ ins ++ sampleHtml.drop 6 :=
  ⟨by decide, c2_insertion_preserves_content sampleHtml dollarCss 6 (by decide)⟩

/-- C3: the transform is not idempotent on its own output: one run adds one
`"<style>"` occurrence; the transformed output again contains `"</head>"`,
first at the position just after the inserted block, so a second run (with
whatever CSS the generator now produces) inserts a second style element,
giving two more than the pre-injection source. -/
theorem c3_not_idempotent (html css1 css2 : List Char) (i : Nat)
    (hi : firstIndexOf html headClose = some i)
    (h1d : dollar ∉ css1) (h1s : countOccs styleOpen css1 = 0)
    (h1h : countOccs headClose css1 = 0)
    (h2d : dollar ∉ css2) (h2s : countOccs styleOpen css2 = 0) :
    countOccs styleOpen (transformHtml css1 html) =
      countOccs styleOpen html + 1 ∧
    firstIndexOf (transformHtml css1 html) headClose =
      some (i + (styleIns css1).length) ∧
    countOccs styleOpen (transformHtml css2 (transformHtml css1 html)) =
      countOccs styleOpen html + 2 := by
  have k1 := countOccs_transform html css1 i hi h1d h1s
  have k2 := firstIndexOf_transform html css1 i hi h1d h1h
  have k3 := countOccs_transform (transformHtml css1 html) css2 _ k2 h2d h2s
  exact ⟨k1, k2, by rw [k3, k1]⟩

theorem c3_not_idempotent_witness :
    firstIndexOf sampleHtml headClose = some 6 ∧ dollar ∉ sampleCss ∧
    countOccs styleOpen sampleCss = 0 ∧ countOccs headClose sampleCss = 0 ∧
    (countOccs styleOpen (transformHtml sampleCss sampleHtml) =
        countOccs styleOpen sampleHtml + 1 ∧
      firstIndexOf (transformHtml sampleCss sampleHtml) headClose =
        some (6 + (styleIns sampleCss).length) ∧
      countOccs styleOpen
          (transformHtml sampleCss (transformHtml sampleCss sampleHtml)) =
        countOccs styleOpen sampleHtml + 2) :=
  ⟨by decide, by decide, by decide, by decide,
   c3_not_idempotent sampleHtml sampleCss sampleCss 6 (by decide) (by decide)
     (by decide) (by decide) (by decide) (by decide)⟩

/-- C4: when the generator produces the empty CSS string, the transform
still inserts a present and well-formed style element (an opening style tag
immediately followed by a closing style tag) before the closing head tag. -/
theorem c4_empty_css_well_formed (html : List Char) (i : Nat)
    (hi : firstIndexOf html headClose = some i) :
    transformHtml [] html =
      html.take i ++ (styleOpen ++ styleClose ++ ['\n']) ++ html.drop i ∧
    hasPre headClose (html.drop i) = true := by
  refine ⟨?_, (firstIndexOf_spec html headClose i hi).1⟩
  rw [transform_structure html [] i hi (by decide)]
  simp [styleIns]

theorem c4_empty_css_well_formed_witness :
    firstIndexOf sampleHtml headClose = some 6 ∧
    (transformHtml [] sampleHtml =
        sampleHtml.take 6 ++ (styleOpen ++ styleClose ++ ['\n'])
          ++ sampleHtml.drop 6 ∧
      hasPre headClose (sampleHtml.drop 6) = true) :=
  ⟨by decide, c4_empty_css_well_formed sampleHtml 6 (by decide)⟩

/-- C5: the registered filter (the regex `\.html$` run as an unanchored
search) accepts a path exactly when the path ends in `".html"`. -/
theorem c5_filter_iff_html_ending (path : List Char) :
    regexHtmlSearch path = true ↔ ∃ u, u ++ dotHtml = path := by
  induction path with
  | nil =>
    constructor
    · intro h
      rw [regexHtmlSearch] at h
      simp [dotHtml] at h
    · rintro ⟨u, hu⟩
      exfalso
      have hlen := congrArg List.length hu
      simp [dotHtml] at hlen
  | cons c t ih =>
    rw [regexHtmlSearch]
    constructor
    · intro h
      rw [Bool.or_eq_true] at h
      rcases h with h1 | h1
      · exact ⟨[], by rw [List.nil_append, ← beq_iff_eq.mp h1]⟩
      · obtain ⟨u, hu⟩ := ih.mp h1
        exact ⟨c :: u, by rw [List.cons_append, hu]⟩
    · rintro ⟨u, hu⟩
      rw [Bool.or_eq_true]
      cases u with
      | nil =>
        left
        rw [List.nil_append] at hu
        exact beq_iff_eq.mpr hu.symm
      | cons x u2 =>
        right
        rw [List.cons_append] at hu
        injection hu with hu1 hu2
        exact ih.mpr ⟨u2, hu2⟩

/-- C6: configuration resolution: a caller-supplied value is used exactly as
given and the result does not depend on the outcome of the external
config-discovery call (it is not consulted); with no caller value, the
discovered configuration is the one used. -/
theorem c6_config_resolution {Config Err : Type} (c d : Config)
    (r r2 : Except Err Config) :
    resolveConfig (some c) r = Except.ok c ∧
    resolveConfig (some c) r = resolveConfig (some c) r2 ∧
    resolveConfig none (Except.ok d) = (Except.ok d : Except Err Config) :=
  ⟨rfl, rfl, rfl⟩

/-- C7: a rejection of the external config-discovery call (when it is
consulted) or of the external CSS-generation call propagates unchanged: the
hook fails with the same error value and returns no transformed content. -/
theorem c7_error_propagation {Config Err : Type} (e : Err)
    (generate : List Char → Except Err (List Char)) (html : List Char)
    (hg : generate html = Except.error e) :
    resolveConfig (none : Option Config) (Except.error e) = Except.error e ∧
    onLoadHook generate html = Except.error e := by
  refine ⟨rfl, ?_⟩
  simp only [onLoadHook, hg]

theorem c7_error_propagation_witness :
    (fun _ : List Char => (Except.error 5 : Except Nat (List Char)))
        sampleHtml = Except.error 5 ∧
    (resolveConfig (none : Option Unit) (Except.error (5 : Nat))
        = Except.error 5 ∧
      onLoadHook (fun _ => (Except.error 5 : Except Nat (List Char)))
        sampleHtml = Except.error 5) :=
  ⟨rfl, c7_error_propagation 5 _ sampleHtml rfl⟩

/-- C8: every successful result of the `onLoad` callback declares the
loader `'html'`, and its contents are the transformed text for the CSS the
generator returned, whether or not an injection took place. -/
theorem c8_loader_html {Err : Type}
    (generate : List Char → Except Err (List Char)) (html : List Char)
    (r : LoadResult) (h : onLoadHook generate html = Except.ok r) :
    r.loader = "html" ∧
    ∃ css, generate html = Except.ok css ∧ r.contents = transformHtml css html := by
  cases hg : generate html with
  | error e =>
    have hh : onLoadHook generate html = Except.error e := by
      simp only [onLoadHook, hg]
    rw [hh] at h
    cases h
  | ok css =>
    have hh : onLoadHook generate html = Except.ok (onLoadResult css html) := by
      simp only [onLoadHook, hg]
    rw [hh] at h
    injection h with h2
    subst h2
    exact ⟨rfl, css, rfl, rfl⟩

theorem c8_loader_html_witness :
    onLoadHook (fun _ => (Except.ok sampleCss : Except Nat (List Char)))
        sampleHtml = Except.ok (onLoadResult sampleCss sampleHtml) ∧
    ((onLoadResult sampleCss sampleHtml).loader = "html" ∧
      ∃ css, (fun _ => (Except.ok sampleCss : Except Nat (List Char)))
          sampleHtml = Except.ok css ∧
        (onLoadResult sampleCss sampleHtml).contents =
          transformHtml css sampleHtml) :=
  ⟨rfl, c8_loader_html (fun _ => Except.ok sampleCss) sampleHtml
    (onLoadResult sampleCss sampleHtml) rfl⟩

/-- C9: when the input contains no occurrence of the exact lowercase
`"</head>"`, the callback returns the content completely unchanged, still
declaring the HTML loader. -/
theorem c9_no_headclose_unchanged (html css : List Char)
    (h : countOccs headClose html = 0) :
    onLoadResult css html = { contents := html, loader := "html" } := by
  have hnone : firstIndexOf html headClose = none :=
    firstIndexOf_none_of html headClose
      ((countOccs_zero_iff headClose html (by decide)).1 h)
  simp only [onLoadResult, transformHtml, jsReplace, hnone]

theorem c9_no_headclose_unchanged_witness :
    countOccs headClose upperHtml = 0 ∧
    onLoadResult sampleCss upperHtml =
      { contents := upperHtml, loader := "html" } :=
  ⟨by decide, c9_no_headclose_unchanged upperHtml sampleCss (by decide)⟩

/-- C10 as stated is false: for the generated CSS `"$&"`, JavaScript
`String.prototype.replace` expands the escape to the matched `"</head>"`,
so the inserted substring is not the plain concatenation
`"<style>" ++ css ++ "</style>" ++ "\n"`. -/
theorem c10_plain_concatenation_counterexample :
    firstIndexOf sampleHtml headClose = some 6 ∧
    transformHtml dollarCss sampleHtml ≠
      sampleHtml.take 6 ++ styleIns dollarCss ++ sampleHtml.drop 6 := by
  decide

/-- C10 (amended): provided the generated CSS contains no dollar character,
the inserted substring is exactly `"<style>" ++ css ++ "</style>"` followed
by a single newline, with no further modification of the CSS. -/
theorem c10_amended_insertion (html css : List Char) (i : Nat)
    (hi : firstIndexOf html headClose = some i) (hd : dollar ∉ css) :
    transformHtml css html =
      html.take i ++ (styleOpen ++ css ++ styleClose ++ ['\n'])
        ++ html.drop i := by
  rw [transform_structure html css i hi hd]
  rfl

theorem c10_amended_insertion_witness :
    firstIndexOf sampleHtml headClose = some 6 ∧ dollar ∉ sampleCss ∧
    transformHtml sampleCss sampleHtml =
      sampleHtml.take 6 ++ (styleOpen ++ sampleCss ++ styleClose ++ ['\n'])
        ++ sampleHtml.drop 6 :=
  ⟨by decide, by decide,
   c10_amended_insertion sampleHtml sampleCss 6 (by decide) (by decide)⟩

end BunPluginUnocss
